import Mathlib

/-!
# Verification of the email-list-cleanup CSV cleaning pipeline

Shallow embedding of `src/src/App.tsx` (the `CSVParser` component): the
data model (records, tables, the component's signal state) and the
operations `validateEmail`, `processData`, `handleEmailCorrection`,
`handleDownload`, `resetState` and the `handleFileChange` parse-completion
logic, together with theorems checking the specification's claims.
-/

set_option maxRecDepth 4000

namespace EmailCleanup

/-! ## Strings: JavaScript `trim`, `toLowerCase`, and the regex character class -/

/-- Whitespace characters, modelling the JS `\s` class / `String.prototype.trim`
(restricted to the ASCII range). -/
def isWS (c : Char) : Bool :=
  c == ' ' || c == '\t' || c == '\n' || c == '\r' || c == '\x0b' || c == '\x0c'

/-- `String.prototype.trim`: remove leading and trailing whitespace. -/
def jsTrim (s : String) : String :=
  String.mk (((s.toList.dropWhile isWS).reverse.dropWhile isWS).reverse)

/-- `String.prototype.toLowerCase` (character-wise lower-casing). -/
def jsLower (s : String) : String :=
  String.mk (s.toList.map Char.toLower)

/-- A character matched by the regex class `[^\s@]`. -/
def okChar (c : Char) : Bool :=
  !isWS c && c != '@'

/-- All ways to split a list into a prefix and a suffix. -/
def splits : List Char → List (List Char × List Char)
  | [] => [([], [])]
  | c :: cs => ([], c :: cs) :: (splits cs).map (fun p => (c :: p.1, p.2))

theorem mem_splits (l : List Char) :
    ∀ p : List Char × List Char, p ∈ splits l ↔ p.1 ++ p.2 = l := by
  induction l with
  | nil =>
    intro p
    constructor
    · intro h
      simp only [splits, List.mem_singleton] at h
      subst h; rfl
    · intro h
      rcases p with ⟨a, b⟩
      simp only [splits, List.mem_singleton]
      rcases a with _ | ⟨c, a⟩
      · simp at h; simp [h]
      · simp at h
  | cons c cs ih =>
    intro p
    rcases p with ⟨a, b⟩
    simp only [splits, List.mem_cons, List.mem_map]
    constructor
    · rintro (h | ⟨q, hq, h⟩)
      · cases h; rfl
      · cases h
        simp only [List.cons_append]
        rw [(ih q).mp hq]
    · intro h
      rcases a with _ | ⟨d, a⟩
      · left; simp at h; simp [h]
      · right
        refine ⟨(a, b), ?_, ?_⟩
        · rw [ih]
          simpa using congrArg List.tail h
        · have : d = c := by simpa using congrArg (List.headD · ' ') h
          simp [this]

/-- The regex test `/^[^\s@]+@[^\s@]+\.[^\s@]+$/.test(email)` of
`validateEmail` in `App.tsx`: one or more non-space non-`@` characters,
then `@`, then one or more non-space non-`@` characters, then `.`,
then one or more non-space non-`@` characters. -/
def validateEmail (s : String) : Bool :=
  (splits s.toList).any fun p =>
    !p.1.isEmpty && p.1.all okChar &&
      (match p.2 with
       | a :: d =>
          a == '@' &&
            (splits d).any fun q =>
              !q.1.isEmpty && q.1.all okChar &&
                (match q.2 with
                 | b :: c => b == '.' && !c.isEmpty && c.all okChar
                 | [] => false)
       | [] => false)

/-! ## Records and tables

A parsed CSV row is a JS object: an ordered mapping from column name to
string cell value. We model it as an ordered association list; JS object
keys are unique, and `JSON.stringify` is injective on such records, so the
ledger key `JSON.stringify(row)` is modelled by the record itself. -/

/-- One CSV row: ordered column-name/value pairs (a JS object). -/
abbrev Rcd := List (String × String)

/-- JS object indexing `obj[k]`: the value at key `k`, `none` when absent
(JS `undefined`). -/
def jsObjGet {κ ν : Type} [BEq κ] (L : List (κ × ν)) (k : κ) : Option ν :=
  (L.find? (fun p => p.1 == k)).map Prod.snd

/-- The JS spread-update `{...obj, [k]: v}`: replace the value at key `k`
keeping its position, or append the key if absent. -/
def jsObjSet {κ ν : Type} [BEq κ] (L : List (κ × ν)) (k : κ) (v : ν) : List (κ × ν) :=
  if L.any (fun p => p.1 == k) then
    L.map (fun p => if p.1 == k then (p.1, v) else p)
  else
    L ++ [(k, v)]

/-- `row[k]` for a CSV row. -/
def getField (r : Rcd) (k : String) : Option String :=
  jsObjGet r k

/-- `{...row, [k]: v}` for a CSV row. -/
def setField (r : Rcd) (k v : String) : Rcd :=
  jsObjSet r k v

/-- `row[col]` as used after normalization, where the column is present. -/
def emailOf (col : String) (r : Rcd) : String :=
  (getField r col).getD ""

/-- `Object.keys(row)`: the record's column names in order. -/
def recordKeys (r : Rcd) : List String :=
  r.map Prod.fst

/-! ## The correction ledger

`correctedEmails` is a JS object keyed by `JSON.stringify(row)`. -/

/-- Lookup `ledger[JSON.stringify(r)]`. -/
def ledgerGet (L : List (Rcd × String)) (r : Rcd) : Option String :=
  jsObjGet L r

/-- The update `{...prev, [JSON.stringify(r)]: v}`. -/
def ledgerSet (L : List (Rcd × String)) (r : Rcd) (v : String) : List (Rcd × String) :=
  jsObjSet L r v

/-! ## Component state

One signal per field of the `CSVParser` component. -/

/-- The `error` signal holds either the structured `results.errors` array
or a plain message string. -/
inductive ErrorValue where
  | parseErrors (details : List String)
  | message (m : String)
  deriving DecidableEq

/-- The signals of the `CSVParser` component. -/
structure AppState where
  csvData : Option (List Rcd)
  headers : List String
  selectedEmailColumn : Option String
  error : Option ErrorValue
  invalidEmails : List Rcd
  duplicateRows : List Rcd
  filteredData : List Rcd
  originalFileName : String
  correctedEmails : List (Rcd × String)
  deriving DecidableEq

/-- The initial signal values. -/
def initialState : AppState :=
  { csvData := none, headers := [], selectedEmailColumn := none, error := none,
    invalidEmails := [], duplicateRows := [], filteredData := [],
    originalFileName := "filtered_data", correctedEmails := [] }

/-! ## resetState and the file-change / parse-completion handler -/

/-- `resetState`: clears `csvData`, `headers`, `selectedEmailColumn`,
`invalidEmails`, `duplicateRows`, `filteredData` — and nothing else. -/
def resetState (s : AppState) : AppState :=
  { s with csvData := none, headers := [], selectedEmailColumn := none,
           invalidEmails := [], duplicateRows := [], filteredData := [] }

/-- The outcome the Papa `complete` callback receives: the structured
`results.errors` array and the parsed `results.data` rows. -/
structure ParseResults where
  errors : List String
  data : List Rcd
  deriving DecidableEq

/-- `file.name.replace(/\.csv$/, "")`. -/
def stripCsvSuffix (n : String) : String :=
  if n.endsWith ".csv" then n.dropRight 4 else n

/-- `handleFileChange` for a chosen file, with the Papa `complete` callback
inlined on its `results`: records the base name, resets the column
selection, then either reports `results.errors` and resets, stores the
data and headers, or reports "CSV appears to be empty." and resets. -/
def handleFileChange (s : AppState) (fileName : String) (results : ParseResults) : AppState :=
  let s := { s with originalFileName := stripCsvSuffix fileName,
                    selectedEmailColumn := none }
  if results.errors.length > 0 then
    resetState { s with error := some (ErrorValue.parseErrors results.errors) }
  else if results.data.length > 0 then
    { s with headers := recordKeys (results.data.headD []),
             csvData := some results.data, error := none }
  else
    resetState { s with error := some (ErrorValue.message "CSV appears to be empty.") }

/-! ## processData: normalization and classification -/

/-- One step of the normalization map
`(row) => ({...row, [emailColumn]: row[emailColumn].trim().toLowerCase()})`;
`none` models the JS `TypeError` thrown when `row[emailColumn]` is absent. -/
def trimRow (col : String) (r : Rcd) : Option Rcd :=
  (getField r col).map (fun v => setField r col (jsLower (jsTrim v)))

/-- The normalization pass over the whole table. -/
def normalizeRows (col : String) (rows : List Rcd) : Option (List Rcd) :=
  rows.mapM (trimRow col)

/-- The `validRows.forEach` loop: partition rows into `uniqueRows` (email
not yet in `emailSet`) and `duplicates`, threading the seen-email set. -/
def splitDups (col : String) (seen : List String) : List Rcd → List Rcd × List Rcd
  | [] => ([], [])
  | r :: rest =>
      let e := emailOf col r
      if seen.contains e then
        let p := splitDups col seen rest
        (p.1, r :: p.2)
      else
        let p := splitDups col (e :: seen) rest
        (r :: p.1, p.2)

/-- The classification core of `processData` on already-normalized rows:
`(uniqueRows, invalidRowsList, duplicates)`. -/
def classifyRows (col : String) (rows : List Rcd) : List Rcd × List Rcd × List Rcd :=
  let invalidRowsList := rows.filter (fun r => !validateEmail (emailOf col r))
  let validRows := rows.filter (fun r => validateEmail (emailOf col r))
  let p := splitDups col [] validRows
  (p.1, invalidRowsList, p.2)

/-- `processData`: no-op (`return`) when `csvData()` or
`selectedEmailColumn()` is falsy (no table, no selection, or the empty
placeholder column name); otherwise normalize and classify, filling the
`invalidEmails`, `duplicateRows` and `filteredData` signals. `none` models
the normalization step throwing. -/
def processData (s : AppState) : Option AppState :=
  match s.csvData, s.selectedEmailColumn with
  | some data, some col =>
      if col = "" then some s
      else
        (normalizeRows col data).map (fun trimmed =>
          let c := classifyRows col trimmed
          { s with invalidEmails := c.2.1, duplicateRows := c.2.2, filteredData := c.1 })
  | _, _ => some s

/-! ## Corrections and download -/

/-- `handleEmailCorrection(originalRow, newEmail)`: only when `newEmail`
passes `validateEmail` is the ledger updated. -/
def handleEmailCorrection (s : AppState) (originalRow : Rcd) (newEmail : String) : AppState :=
  if validateEmail newEmail then
    { s with correctedEmails := ledgerSet s.correctedEmails originalRow newEmail }
  else s

/-- The computed key `[selectedEmailColumn()]` of the corrected row: JS
stringifies a `null` computed key to `"null"`. -/
def selectedCol (s : AppState) : String :=
  (s.selectedEmailColumn).getD "null"

/-- The `downloadData` array built by `handleDownload`: the valid rows,
then for each invalid row (in order) whose ledger entry is truthy, a copy
with the email column replaced by the stored correction. -/
def buildDownloadData (s : AppState) : List Rcd :=
  s.filteredData ++
    s.invalidEmails.filterMap (fun row =>
      match ledgerGet s.correctedEmails row with
      | some c => if c ≠ "" then some (setField row (selectedCol s) c) else none
      | none => none)

/-- `handleDownload`: `none` when the early-return guard fires
(no filtered rows and an empty ledger), otherwise the serialized table. -/
def handleDownload (s : AppState) : Option (List Rcd) :=
  if s.filteredData.length = 0 ∧ s.correctedEmails.length = 0 then none
  else some (buildDownloadData s)

/-! ## Specification-side definitions

These restate contracts in the specification's words, to be compared with
the definitions embedded from the source. -/

/-- Claim C4's wording of the validity policy: a non-empty local part
without whitespace or at-sign, then the at-sign, then a domain part
without whitespace or at-sign that contains at least one dot, with at
least one character after the final dot. -/
def claimValidEmail (s : String) : Bool :=
  (splits s.toList).any fun p =>
    !p.1.isEmpty && p.1.all okChar &&
      (match p.2 with
       | a :: d =>
          a == '@' && !d.isEmpty && d.all okChar && d.contains '.' &&
            !(d.reverse.takeWhile (fun c => c != '.')).isEmpty
       | [] => false)

/-- The regex of `validateEmail` restated: a non-empty all-`okChar` local
part, the at-sign, then an all-`okChar` domain that contains a dot which
is neither its first nor its last character. -/
def validateEmailAmended (s : String) : Bool :=
  (splits s.toList).any fun p =>
    !p.1.isEmpty && p.1.all okChar &&
      (match p.2 with
       | a :: d => a == '@' && d.all okChar && ((d.drop 1).dropLast.contains '.')
       | [] => false)

/-- The specification's tie-break rule for the classifier, stated
directly: a row is valid iff its email does not occur among the emails of
the rows before it (`prefEmails`); every later occurrence of an
already-seen email is a duplicate. -/
def firstOccurrenceSplit (col : String) (prefEmails : List String) :
    List Rcd → List Rcd × List Rcd
  | [] => ([], [])
  | r :: rest =>
      let e := emailOf col r
      let p := firstOccurrenceSplit col (prefEmails ++ [e]) rest
      if prefEmails.contains e then (p.1, r :: p.2) else (r :: p.1, p.2)

/-- The specification's Exporter contract: the valid rows, then for each
invalid row (in order) whose ledger entry is resolved — i.e. present and
passing the validator — a copy with the email column replaced by the
resolved email. -/
def specExportTable (valid invalid : List Rcd) (ledger : List (Rcd × String))
    (col : String) : List Rcd :=
  valid ++ invalid.filterMap (fun row =>
    match ledgerGet ledger row with
    | some c => if validateEmail c then some (setField row col c) else none
    | none => none)

/-- A sample invalid row used by concrete witnesses. -/
def sampleRow : Rcd :=
  [("first_name", "Ann"), ("last_name", "Lee"), ("email", "not-an-email")]

/-- A sample valid row used by concrete witnesses. -/
def sampleValidRow : Rcd :=
  [("first_name", "Bob"), ("last_name", "Kim"), ("email", "a@example.com")]

/-- Concrete input table for classification witnesses: a valid email, an
invalid one, and a duplicate differing only in case and whitespace. -/
def witnessData : List Rcd :=
  [[("email", "A@Example.com ")], [("email", "not-an-email")], [("email", " a@example.com")]]

/-- The state holding `witnessData` with the email column selected. -/
def witnessState : AppState :=
  { initialState with csvData := some witnessData, selectedEmailColumn := some "email" }

/-- `witnessData` after normalization. -/
def witnessTrimmed : List Rcd :=
  [[("email", "a@example.com")], [("email", "not-an-email")], [("email", "a@example.com")]]

/-- The state produced by `processData` on `witnessState`. -/
def witnessProcessed : AppState :=
  { witnessState with invalidEmails := [[("email", "not-an-email")]],
                      filteredData := [[("email", "a@example.com")]],
                      duplicateRows := [[("email", "a@example.com")]] }

/-- A classified state with one valid row and one corrected invalid row,
used by download witnesses. -/
def downloadWitnessState : AppState :=
  { initialState with selectedEmailColumn := some "email",
                      filteredData := [sampleValidRow],
                      invalidEmails := [sampleRow],
                      correctedEmails := [(sampleRow, "fixed@example.com")] }

/-- A classified state whose stored correction collides with the valid
row's email after normalization, used by export witnesses. -/
def exportWitnessState : AppState :=
  { initialState with selectedEmailColumn := some "email",
                      filteredData := [sampleValidRow],
                      invalidEmails := [sampleRow],
                      correctedEmails := [(sampleRow, "A@Example.com")] }

/-- A row whose email needs both trimming and lower-casing, used by the
normalizer witness. -/
def normWitnessRow : Rcd :=
  [("first_name", "Cya"), ("last_name", "Doe"), ("email", "  C.Doe@Mail.org ")]

/-! ## Helper lemmas: JS object get/set -/

theorem jsObjSet_keys_of_mem {κ ν : Type} [BEq κ] (L : List (κ × ν)) (k : κ) (v : ν)
    (h : L.any (fun p => p.1 == k) = true) :
    (jsObjSet L k v).map Prod.fst = L.map Prod.fst := by
  unfold jsObjSet
  rw [if_pos h, List.map_map]
  apply List.map_congr_left
  intro p _
  by_cases hp : (p.1 == k) = true <;> simp [hp]

section JsObj

variable {κ ν : Type} [BEq κ] [LawfulBEq κ]

theorem find?_map_update_self (t : List (κ × ν)) (k : κ) (v : ν)
    (h : t.any (fun p => p.1 == k) = true) :
    Option.map Prod.snd
      (List.find? (fun p => p.1 == k)
        (t.map (fun p => if p.1 == k then (p.1, v) else p))) = some v := by
  induction t with
  | nil => simp at h
  | cons a t ih =>
    cases ha : (a.1 == k) with
    | true =>
      have step : List.find? (fun p => p.1 == k)
          ((a.1, v) :: t.map (fun p => if p.1 == k then (p.1, v) else p)) = some (a.1, v) :=
        List.find?_cons_of_pos _ ha
      rw [List.map_cons, if_pos ha, step]
      rfl
    | false =>
      have step : List.find? (fun p => p.1 == k)
          (a :: t.map (fun p => if p.1 == k then (p.1, v) else p)) =
          List.find? (fun p => p.1 == k) (t.map (fun p => if p.1 == k then (p.1, v) else p)) :=
        List.find?_cons_of_neg _ (by simp [ha])
      rw [List.map_cons, if_neg (by simp [ha]), step]
      apply ih
      simpa [ha] using h

theorem find?_map_update_ne (t : List (κ × ν)) (k k2 : κ) (v : ν) (hne : k2 ≠ k) :
    List.find? (fun p => p.1 == k2)
        (t.map (fun p => if p.1 == k then (p.1, v) else p))
      = List.find? (fun p => p.1 == k2) t := by
  induction t with
  | nil => rfl
  | cons a t ih =>
    cases ha2 : (a.1 == k2) with
    | true =>
      have ha : (a.1 == k) = false := by
        have e : a.1 = k2 := eq_of_beq ha2
        rw [e]
        exact beq_eq_false_iff_ne.mpr hne
      have step1 : List.find? (fun p => p.1 == k2)
          (a :: t.map (fun p => if p.1 == k then (p.1, v) else p)) = some a :=
        List.find?_cons_of_pos _ ha2
      have step2 : List.find? (fun p => p.1 == k2) (a :: t) = some a :=
        List.find?_cons_of_pos _ ha2
      rw [List.map_cons, if_neg (by simp [ha]), step1, step2]
    | false =>
      have step2 : List.find? (fun p => p.1 == k2) (a :: t) =
          List.find? (fun p => p.1 == k2) t :=
        List.find?_cons_of_neg _ (by simp [ha2])
      cases ha : (a.1 == k) with
      | true =>
        have step1 : List.find? (fun p => p.1 == k2)
            ((a.1, v) :: t.map (fun p => if p.1 == k then (p.1, v) else p)) =
            List.find? (fun p => p.1 == k2) (t.map (fun p => if p.1 == k then (p.1, v) else p)) :=
          List.find?_cons_of_neg _ (by simp [ha2])
        rw [List.map_cons, if_pos ha, step1, step2, ih]
      | false =>
        have step1 : List.find? (fun p => p.1 == k2)
            (a :: t.map (fun p => if p.1 == k then (p.1, v) else p)) =
            List.find? (fun p => p.1 == k2) (t.map (fun p => if p.1 == k then (p.1, v) else p)) :=
          List.find?_cons_of_neg _ (by simp [ha2])
        rw [List.map_cons, if_neg (by simp [ha]), step1, step2, ih]

theorem jsObjGet_set_self (L : List (κ × ν)) (k : κ) (v : ν) :
    jsObjGet (jsObjSet L k v) k = some v := by
  unfold jsObjGet jsObjSet
  cases h : L.any (fun p => p.1 == k) with
  | true =>
    rw [if_pos rfl]
    exact find?_map_update_self L k v h
  | false =>
    rw [if_neg (by simp), List.find?_append]
    have hnone : L.find? (fun p => p.1 == k) = none := by
      rw [List.find?_eq_none]
      intro x hx hx2
      have : L.any (fun p => p.1 == k) = true := List.any_eq_true.mpr ⟨x, hx, hx2⟩
      rw [h] at this
      exact Bool.false_ne_true this
    rw [hnone, List.find?_cons_of_pos _ (by simp)]
    rfl

theorem jsObjGet_set_ne (L : List (κ × ν)) (k k2 : κ) (v : ν) (hne : k2 ≠ k) :
    jsObjGet (jsObjSet L k v) k2 = jsObjGet L k2 := by
  unfold jsObjGet jsObjSet
  cases h : L.any (fun p => p.1 == k) with
  | true =>
    rw [if_pos rfl, find?_map_update_ne L k k2 v hne]
  | false =>
    rw [if_neg (by simp), List.find?_append]
    have hlast : List.find? (fun p => p.1 == k2) [(k, v)] = none := by
      have hkk : (k == k2) = false := beq_eq_false_iff_ne.mpr (Ne.symm hne)
      rw [List.find?_cons_of_neg _ (by simp [hkk])]
      rfl
    rw [hlast, Option.or_none]

end JsObj

theorem getField_setField_self (r : Rcd) (k v : String) :
    getField (setField r k v) k = some v :=
  jsObjGet_set_self r k v

theorem getField_setField_ne (r : Rcd) (k k2 v : String) (hne : k2 ≠ k) :
    getField (setField r k v) k2 = getField r k2 :=
  jsObjGet_set_ne r k k2 v hne

theorem ledgerGet_ledgerSet_self (L : List (Rcd × String)) (r : Rcd) (v : String) :
    ledgerGet (ledgerSet L r v) r = some v :=
  jsObjGet_set_self L r v

theorem recordKeys_setField_of_mem (r : Rcd) (k v : String)
    (h : r.any (fun p => p.1 == k) = true) :
    recordKeys (setField r k v) = recordKeys r :=
  jsObjSet_keys_of_mem r k v h

/-! ## Helper lemmas: the classifier -/

theorem splitDups_perm (col : String) (seen : List String) (l : List Rcd) :
    ((splitDups col seen l).1 ++ (splitDups col seen l).2).Perm l := by
  induction l generalizing seen with
  | nil => simp [splitDups]
  | cons r rest ih =>
    simp only [splitDups]
    cases h : seen.contains (emailOf col r) with
    | true =>
      simp only [if_pos rfl]
      exact List.perm_middle.trans ((ih seen).cons r)
    | false =>
      simp only [if_neg (by simp : ¬(false = true))]
      exact ((ih (emailOf col r :: seen)).cons r)

theorem splitDups_fst_sublist (col : String) (seen : List String) (l : List Rcd) :
    (splitDups col seen l).1.Sublist l := by
  induction l generalizing seen with
  | nil => simp [splitDups]
  | cons r rest ih =>
    simp only [splitDups]
    cases h : seen.contains (emailOf col r) with
    | true =>
      simp only [if_pos rfl]
      exact (ih seen).cons r
    | false =>
      simp only [if_neg (by simp : ¬(false = true))]
      exact (ih (emailOf col r :: seen)).cons₂ r

theorem splitDups_snd_sublist (col : String) (seen : List String) (l : List Rcd) :
    (splitDups col seen l).2.Sublist l := by
  induction l generalizing seen with
  | nil => simp [splitDups]
  | cons r rest ih =>
    simp only [splitDups]
    cases h : seen.contains (emailOf col r) with
    | true =>
      simp only [if_pos rfl]
      exact (ih seen).cons₂ r
    | false =>
      simp only [if_neg (by simp : ¬(false = true))]
      exact (ih (emailOf col r :: seen)).cons r

theorem splitDups_eq_firstOccurrenceSplit (col : String) (l : List Rcd) :
    ∀ (seen pref : List String), (∀ x, x ∈ seen ↔ x ∈ pref) →
      splitDups col seen l = firstOccurrenceSplit col pref l := by
  induction l with
  | nil => intro seen pref _; rfl
  | cons r rest ih =>
    intro seen pref h
    simp only [splitDups, firstOccurrenceSplit]
    by_cases he : emailOf col r ∈ pref
    · have h1 : seen.contains (emailOf col r) = true := by
        rw [List.contains_eq_any_beq, List.any_eq_true]
        exact ⟨emailOf col r, (h _).mpr he, by simp⟩
      have h2 : pref.contains (emailOf col r) = true := by
        rw [List.contains_eq_any_beq, List.any_eq_true]
        exact ⟨emailOf col r, he, by simp⟩
      rw [if_pos h1, if_pos h2,
        ih seen (pref ++ [emailOf col r]) (fun x => by
          rw [List.mem_append, List.mem_singleton]
          constructor
          · intro hx; exact Or.inl ((h x).mp hx)
          · rintro (hx | rfl)
            · exact (h x).mpr hx
            · exact (h _).mpr he)]
    · have h1 : seen.contains (emailOf col r) = false := by
        rw [Bool.eq_false_iff]
        intro hc
        rw [List.contains_eq_any_beq, List.any_eq_true] at hc
        obtain ⟨x, hx, hbeq⟩ := hc
        rw [beq_iff_eq] at hbeq
        exact he (hbeq ▸ (h x).mp hx)
      have h2 : pref.contains (emailOf col r) = false := by
        rw [Bool.eq_false_iff]
        intro hc
        rw [List.contains_eq_any_beq, List.any_eq_true] at hc
        obtain ⟨x, hx, hbeq⟩ := hc
        rw [beq_iff_eq] at hbeq
        exact he (hbeq ▸ hx)
      rw [if_neg (Bool.eq_false_iff.mp h1), if_neg (Bool.eq_false_iff.mp h2),
        ih (emailOf col r :: seen) (pref ++ [emailOf col r]) (fun x => by
          rw [List.mem_cons, List.mem_append, List.mem_singleton]
          constructor
          · rintro (rfl | hx)
            · exact Or.inr rfl
            · exact Or.inl ((h x).mp hx)
          · rintro (hx | rfl)
            · exact Or.inr ((h x).mpr hx)
            · exact Or.inl rfl)]

/-! ## Claim theorems -/

/-- C1: for every input table and selected email column, classification
partitions the normalized row sequence: the three groups `invalidEmails`,
`filteredData` and `duplicateRows` together are a permutation of the
normalized rows (so every row occurrence lands in exactly one group), the
invalid group holds exactly rows failing validation, and the other two
groups hold only rows passing it. -/
theorem classification_partitions_rows (s s2 : AppState) (data : List Rcd)
    (col : String) (trimmed : List Rcd)
    (hd : s.csvData = some data) (hc : s.selectedEmailColumn = some col)
    (hcol : col ≠ "") (ht : normalizeRows col data = some trimmed)
    (hp : processData s = some s2) :
    (s2.invalidEmails ++ s2.filteredData ++ s2.duplicateRows).Perm trimmed ∧
    (∀ r ∈ s2.invalidEmails, validateEmail (emailOf col r) = false) ∧
    (∀ r ∈ s2.filteredData, validateEmail (emailOf col r) = true) ∧
    (∀ r ∈ s2.duplicateRows, validateEmail (emailOf col r) = true) := by
  simp only [processData, hd, hc] at hp
  rw [if_neg hcol, ht] at hp
  have hs2 := Option.some.inj hp
  subst hs2
  simp only [classifyRows]
  constructor
  · have hperm1 : ((splitDups col []
        (trimmed.filter fun r => validateEmail (emailOf col r))).1 ++
          (splitDups col [] (trimmed.filter fun r => validateEmail (emailOf col r))).2).Perm
        (trimmed.filter fun r => validateEmail (emailOf col r)) :=
      splitDups_perm col [] _
    have hperm2 : ((trimmed.filter fun r => !validateEmail (emailOf col r)) ++
        (trimmed.filter fun r => validateEmail (emailOf col r))).Perm trimmed := by
      have := List.filter_append_perm (fun r => !validateEmail (emailOf col r)) trimmed
      simpa [Bool.not_not] using this
    rw [List.append_assoc]
    exact ((hperm1.append_left _).trans hperm2)
  refine ⟨?_, ?_, ?_⟩
  · intro r hr
    have := List.of_mem_filter hr
    simpa using this
  · intro r hr
    have hmem : r ∈ trimmed.filter fun r => validateEmail (emailOf col r) :=
      (splitDups_fst_sublist col [] _).mem hr
    have h2 := List.of_mem_filter hmem
    exact h2
  · intro r hr
    have hmem : r ∈ trimmed.filter fun r => validateEmail (emailOf col r) :=
      (splitDups_snd_sublist col [] _).mem hr
    have h2 := List.of_mem_filter hmem
    exact h2

/-- C6: the classifier keeps, among the rows passing validation, exactly
the first occurrence of each normalized email in `filteredData` and sends
every later occurrence to `duplicateRows` (the `firstOccurrenceSplit`
spec), and every output group is a sublist of the input rows, i.e. the
partition is stable. -/
theorem classifier_first_occurrence_stable (col : String) (rows : List Rcd) :
    (classifyRows col rows).2.1 = rows.filter (fun r => !validateEmail (emailOf col r)) ∧
    ((classifyRows col rows).1, (classifyRows col rows).2.2) =
      firstOccurrenceSplit col [] (rows.filter (fun r => validateEmail (emailOf col r))) ∧
    (classifyRows col rows).1.Sublist rows ∧
    (classifyRows col rows).2.1.Sublist rows ∧
    (classifyRows col rows).2.2.Sublist rows := by
  refine ⟨rfl, ?_, ?_, List.filter_sublist rows, ?_⟩
  · rw [← splitDups_eq_firstOccurrenceSplit col _ [] [] (fun x => Iff.rfl)]
    rfl
  · exact (splitDups_fst_sublist col [] _).trans (List.filter_sublist rows)
  · exact (splitDups_snd_sublist col [] _).trans (List.filter_sublist rows)

/-- Concrete witness for `classification_partitions_rows` on a three-row
table with one valid, one invalid and one duplicate email. -/
theorem classification_partitions_rows_witness :
    (witnessProcessed.invalidEmails ++ witnessProcessed.filteredData ++
        witnessProcessed.duplicateRows).Perm witnessTrimmed ∧
    (∀ r ∈ witnessProcessed.invalidEmails, validateEmail (emailOf "email" r) = false) ∧
    (∀ r ∈ witnessProcessed.filteredData, validateEmail (emailOf "email" r) = true) ∧
    (∀ r ∈ witnessProcessed.duplicateRows, validateEmail (emailOf "email" r) = true) :=
  classification_partitions_rows witnessState witnessProcessed witnessData "email"
    witnessTrimmed rfl rfl (by decide) (by decide) (by decide)

/-- C2 counterexample: after a passing correction, a failing candidate is
not stored — the ledger still holds the earlier passing entry, so the
entry is not overwritten and the row does not revert to
non-export-eligible, contrary to the claim. -/
theorem correction_not_stored_cex :
    validateEmail "still-bad" = false ∧
    (handleEmailCorrection
        (handleEmailCorrection initialState sampleRow "fixed@example.com")
        sampleRow "still-bad").correctedEmails
      = [(sampleRow, "fixed@example.com")] := by
  refine ⟨by decide, by decide⟩

/-- C2 amended: `handleEmailCorrection` stores a candidate only when it
passes validation; after storing a passing candidate, a later failing
candidate leaves the state — in particular the ledger entry, and with it
export eligibility — entirely unchanged. -/
theorem correction_only_valid_stored (s : AppState) (row : Rcd) (good bad : String)
    (hg : validateEmail good = true) (hb : validateEmail bad = false) :
    ledgerGet (handleEmailCorrection s row good).correctedEmails row = some good ∧
    handleEmailCorrection (handleEmailCorrection s row good) row bad =
      handleEmailCorrection s row good := by
  constructor
  · rw [handleEmailCorrection, if_pos hg]
    exact ledgerGet_ledgerSet_self _ _ _
  · generalize handleEmailCorrection s row good = t
    rw [handleEmailCorrection, if_neg (by simp [hb])]

/-- Concrete witness for `correction_only_valid_stored`. -/
theorem correction_only_valid_stored_witness :
    validateEmail "fixed@example.com" = true ∧ validateEmail "still-bad" = false ∧
    (ledgerGet (handleEmailCorrection initialState sampleRow
        "fixed@example.com").correctedEmails sampleRow = some "fixed@example.com" ∧
      handleEmailCorrection (handleEmailCorrection initialState sampleRow
          "fixed@example.com") sampleRow "still-bad" =
        handleEmailCorrection initialState sampleRow "fixed@example.com") :=
  ⟨by decide, by decide,
    correction_only_valid_stored initialState sampleRow "fixed@example.com" "still-bad"
      (by decide) (by decide)⟩

/-- C5 counterexample: a parse failure clears the table and the groups but
the correction ledger survives (`resetState` never touches
`correctedEmails`), and a successful new-file load leaves the previous
classification groups in place, contrary to the claim that all downstream
state is discarded. -/
theorem session_reset_cex :
    (handleFileChange
        { initialState with correctedEmails := [(sampleRow, "fixed@example.com")] }
        "contacts.csv" { errors := ["Quotes: malformed"], data := [] }).correctedEmails
      = [(sampleRow, "fixed@example.com")] ∧
    (handleFileChange
        { initialState with invalidEmails := [sampleRow] }
        "contacts.csv" { errors := [], data := [sampleValidRow] }).invalidEmails
      = [sampleRow] := by
  refine ⟨by decide, by decide⟩

/-- C5 amended: a parse failure (tokenizer errors or zero data rows)
clears the table, headers, selection and classification groups but leaves
the correction ledger untouched; a successful load stores the new table
and headers and resets only the column selection, leaving the previous
groups and the ledger in place until the next classification. -/
theorem file_load_state_transitions (s : AppState) (fn : String) (results : ParseResults) :
    (results.errors ≠ [] ∨ results.data = [] →
      (handleFileChange s fn results).csvData = none ∧
      (handleFileChange s fn results).headers = [] ∧
      (handleFileChange s fn results).selectedEmailColumn = none ∧
      (handleFileChange s fn results).invalidEmails = [] ∧
      (handleFileChange s fn results).duplicateRows = [] ∧
      (handleFileChange s fn results).filteredData = [] ∧
      (handleFileChange s fn results).correctedEmails = s.correctedEmails) ∧
    (results.errors = [] → results.data ≠ [] →
      (handleFileChange s fn results).csvData = some results.data ∧
      (handleFileChange s fn results).selectedEmailColumn = none ∧
      (handleFileChange s fn results).invalidEmails = s.invalidEmails ∧
      (handleFileChange s fn results).duplicateRows = s.duplicateRows ∧
      (handleFileChange s fn results).filteredData = s.filteredData ∧
      (handleFileChange s fn results).correctedEmails = s.correctedEmails) := by
  obtain ⟨errors, data⟩ := results
  cases errors with
  | nil =>
    cases data with
    | nil => simp [handleFileChange, resetState]
    | cons r t => simp [handleFileChange, resetState]
  | cons e es => simp [handleFileChange, resetState]

/-- Concrete witness for `file_load_state_transitions`: the parse-failure
branch on a state holding one ledger entry. -/
theorem file_load_state_transitions_witness :
    (handleFileChange
        { initialState with correctedEmails := [(sampleRow, "fixed@example.com")] }
        "contacts.csv" { errors := ["Quotes: malformed"], data := [] }).csvData = none ∧
    (handleFileChange
        { initialState with correctedEmails := [(sampleRow, "fixed@example.com")] }
        "contacts.csv" { errors := ["Quotes: malformed"], data := [] }).headers = [] ∧
    (handleFileChange
        { initialState with correctedEmails := [(sampleRow, "fixed@example.com")] }
        "contacts.csv" { errors := ["Quotes: malformed"], data := [] }).selectedEmailColumn = none ∧
    (handleFileChange
        { initialState with correctedEmails := [(sampleRow, "fixed@example.com")] }
        "contacts.csv" { errors := ["Quotes: malformed"], data := [] }).invalidEmails = [] ∧
    (handleFileChange
        { initialState with correctedEmails := [(sampleRow, "fixed@example.com")] }
        "contacts.csv" { errors := ["Quotes: malformed"], data := [] }).duplicateRows = [] ∧
    (handleFileChange
        { initialState with correctedEmails := [(sampleRow, "fixed@example.com")] }
        "contacts.csv" { errors := ["Quotes: malformed"], data := [] }).filteredData = [] ∧
    (handleFileChange
        { initialState with correctedEmails := [(sampleRow, "fixed@example.com")] }
        "contacts.csv" { errors := ["Quotes: malformed"], data := [] }).correctedEmails =
      ({ initialState with
          correctedEmails := [(sampleRow, "fixed@example.com")] } : AppState).correctedEmails :=
  (file_load_state_transitions
      { initialState with correctedEmails := [(sampleRow, "fixed@example.com")] }
      "contacts.csv" { errors := ["Quotes: malformed"], data := [] }).1
    (Or.inl (by decide))

/-- C8: when the tokenizer reports errors, the handler stores the
structured details as a `parseErrors` error value and retains no table;
when there are no errors and zero data rows it stores the distinct
"CSV appears to be empty." message and retains no table; the two error
values are distinct constructors, so the user-visible messages differ. -/
theorem parse_error_paths (s : AppState) (fn : String) (results : ParseResults) :
    (results.errors ≠ [] →
      (handleFileChange s fn results).error = some (ErrorValue.parseErrors results.errors) ∧
      (handleFileChange s fn results).csvData = none) ∧
    (results.errors = [] → results.data = [] →
      (handleFileChange s fn results).error =
        some (ErrorValue.message "CSV appears to be empty.") ∧
      (handleFileChange s fn results).csvData = none) ∧
    (∀ ds m, ErrorValue.parseErrors ds ≠ ErrorValue.message m) := by
  obtain ⟨errors, data⟩ := results
  refine ⟨?_, ?_, fun ds m h => ErrorValue.noConfusion h⟩
  · intro he
    cases errors with
    | nil => exact absurd rfl he
    | cons e es => exact ⟨by simp [handleFileChange, resetState], by simp [handleFileChange, resetState]⟩
  · intro he hd
    subst he
    subst hd
    exact ⟨by simp [handleFileChange, resetState], by simp [handleFileChange, resetState]⟩

/-- Concrete witness for `parse_error_paths`: the tokenizer-error branch. -/
theorem parse_error_paths_witness :
    (handleFileChange initialState "contacts.csv"
        { errors := ["Quotes: malformed"], data := [] }).error =
      some (ErrorValue.parseErrors ["Quotes: malformed"]) ∧
    (handleFileChange initialState "contacts.csv"
        { errors := ["Quotes: malformed"], data := [] }).csvData = none :=
  (parse_error_paths initialState "contacts.csv"
      { errors := ["Quotes: malformed"], data := [] }).1 (by decide)

/-- A present field makes the key test of `jsObjSet` succeed. -/
theorem any_key_of_getField_isSome (r : Rcd) (col : String)
    (h : (getField r col).isSome = true) :
    r.any (fun p => p.1 == col) = true := by
  rw [getField, jsObjGet] at h
  cases hf : r.find? (fun p => p.1 == col) with
  | none => rw [hf] at h; simp at h
  | some p =>
    have hp := List.find?_some hf
    have hm := List.mem_of_find?_eq_some hf
    exact List.any_eq_true.mpr ⟨p, hm, hp⟩

/-- A value looked up in the ledger is the second component of an entry. -/
theorem ledgerGet_mem (L : List (Rcd × String)) (r : Rcd) (c : String)
    (h : ledgerGet L r = some c) : ∃ p ∈ L, p.2 = c := by
  rw [ledgerGet, jsObjGet] at h
  cases hf : L.find? (fun p => p.1 == r) with
  | none => rw [hf] at h; simp at h
  | some p =>
    rw [hf] at h
    exact ⟨p, List.mem_of_find?_eq_some hf, by simpa using h⟩

/-- The empty string never validates. -/
theorem validateEmail_ne_empty (c : String) (h : validateEmail c = true) : c ≠ "" := by
  intro hnil
  rw [hnil] at h
  have hfalse : validateEmail "" = false := by decide
  rw [hfalse] at h
  exact Bool.false_ne_true h

/-- C3: whenever every ledger entry passes validation — which
`handleEmailCorrection`, the ledger's only writer, guarantees — the
download table equals the specification's export table: the valid rows
followed by, for each invalid row in order whose ledger entry is resolved,
that row with the email column replaced by the resolved email; unresolved
invalid rows and duplicate rows contribute nothing. -/
theorem download_matches_spec (s : AppState)
    (hL : ∀ p ∈ s.correctedEmails, validateEmail p.2 = true) :
    buildDownloadData s =
      specExportTable s.filteredData s.invalidEmails s.correctedEmails (selectedCol s) := by
  rw [buildDownloadData, specExportTable]
  congr 1
  apply List.filterMap_congr
  intro row _
  cases hc : ledgerGet s.correctedEmails row with
  | none => rfl
  | some c =>
    obtain ⟨p, hm, hp2⟩ := ledgerGet_mem _ _ _ hc
    have hcv : validateEmail c = true := hp2 ▸ hL p hm
    have hne : c ≠ "" := validateEmail_ne_empty c hcv
    simp [hne, hcv]

/-- Concrete witness for `download_matches_spec`: one valid row, one
invalid row with a resolved correction. -/
theorem download_matches_spec_witness :
    (∀ p ∈ (downloadWitnessState).correctedEmails, validateEmail p.2 = true) ∧
    buildDownloadData downloadWitnessState =
      specExportTable downloadWitnessState.filteredData downloadWitnessState.invalidEmails
        downloadWitnessState.correctedEmails (selectedCol downloadWitnessState) :=
  ⟨by decide, download_matches_spec downloadWitnessState (by decide)⟩

/-- C9 (implicit): a resolved correction is exported verbatim — the
corrected row's email value is exactly the stored string, with no
trimming, lower-casing or deduplication — and every valid row is exported
alongside it, even when the correction coincides with a valid row's email
after normalization. -/
theorem export_correction_verbatim (s : AppState) (v row : Rcd) (c : String)
    (hv : v ∈ s.filteredData) (hrow : row ∈ s.invalidEmails)
    (hc : ledgerGet s.correctedEmails row = some c) (hcv : validateEmail c = true) :
    v ∈ buildDownloadData s ∧
    setField row (selectedCol s) c ∈ buildDownloadData s ∧
    getField (setField row (selectedCol s) c) (selectedCol s) = some c := by
  refine ⟨List.mem_append_left _ hv, ?_, getField_setField_self _ _ _⟩
  apply List.mem_append_right
  apply List.mem_filterMap.mpr
  refine ⟨row, hrow, ?_⟩
  have hne : c ≠ "" := validateEmail_ne_empty c hcv
  simp [hc, hne]

/-- Concrete witness for `export_correction_verbatim`: the stored
correction "A@Example.com" normalizes to the valid row's email
"a@example.com", yet both rows appear in the export and the corrected
row's email stays verbatim. -/
theorem export_correction_verbatim_witness :
    jsLower (jsTrim "A@Example.com") = "a@example.com" ∧
    emailOf "email" sampleValidRow = "a@example.com" ∧
    (sampleValidRow ∈ buildDownloadData exportWitnessState ∧
      setField sampleRow (selectedCol exportWitnessState) "A@Example.com" ∈
        buildDownloadData exportWitnessState ∧
      getField (setField sampleRow (selectedCol exportWitnessState) "A@Example.com")
          (selectedCol exportWitnessState) = some "A@Example.com") :=
  ⟨by decide, by decide,
    export_correction_verbatim exportWitnessState sampleValidRow sampleRow "A@Example.com"
      (by decide) (by decide) (by decide) (by decide)⟩

/-- One normalization step succeeds exactly on rows owning the column, and
rewrites only the email field. -/
theorem trimRow_spec (col : String) (r r2 : Rcd) (h : trimRow col r = some r2) :
    getField r2 col = (getField r col).map (fun v => jsLower (jsTrim v)) ∧
    (∀ k, k ≠ col → getField r2 k = getField r k) ∧
    recordKeys r2 = recordKeys r := by
  rw [trimRow] at h
  cases hv : getField r col with
  | none => rw [hv] at h; simp at h
  | some v =>
    rw [hv] at h
    have hr2 : r2 = setField r col (jsLower (jsTrim v)) := by
      simpa using h.symm
    subst hr2
    refine ⟨?_, ?_, ?_⟩
    · rw [getField_setField_self]
      rfl
    · intro k hk
      exact getField_setField_ne r col k _ hk
    · exact recordKeys_setField_of_mem r col _
        (any_key_of_getField_isSome r col (by rw [hv]; rfl))

/-- C7: when the email column is present in every row, normalization
succeeds and relates input to output pointwise: each output record carries
the trimmed and lower-cased email value, agrees with its input record on
every other column, and has the same column names in the same order. The
embedding is pure, so the input sequence itself is left untouched
(copy-on-write per record, as the contract requires). -/
theorem normalizer_spec (col : String) (rows : List Rcd)
    (h : ∀ r ∈ rows, (getField r col).isSome = true) :
    ∃ rows2, normalizeRows col rows = some rows2 ∧
      List.Forall₂ (fun r r2 =>
        getField r2 col = (getField r col).map (fun v => jsLower (jsTrim v)) ∧
        (∀ k, k ≠ col → getField r2 k = getField r k) ∧
        recordKeys r2 = recordKeys r) rows rows2 := by
  induction rows with
  | nil => exact ⟨[], rfl, List.Forall₂.nil⟩
  | cons r rest ih =>
    have hr := h r (List.mem_cons_self r rest)
    obtain ⟨v, hv⟩ := Option.isSome_iff_exists.mp hr
    obtain ⟨rows2, h2, hf⟩ := ih (fun x hx => h x (List.mem_cons_of_mem r hx))
    refine ⟨setField r col (jsLower (jsTrim v)) :: rows2, ?_, ?_⟩
    · rw [normalizeRows] at h2 ⊢
      rw [List.mapM_cons, trimRow, hv, h2]
      rfl
    · refine List.Forall₂.cons ?_ hf
      exact trimRow_spec col r _ (by rw [trimRow, hv]; rfl)

/-- Concrete witness for `normalizer_spec` on a two-column table. -/
theorem normalizer_spec_witness :
    (∀ r ∈ [sampleValidRow, normWitnessRow], (getField r "email").isSome = true) ∧
    ∃ rows2, normalizeRows "email" [sampleValidRow, normWitnessRow] = some rows2 ∧
      List.Forall₂ (fun r r2 =>
        getField r2 "email" = (getField r "email").map (fun v => jsLower (jsTrim v)) ∧
        (∀ k, k ≠ "email" → getField r2 k = getField r k) ∧
        recordKeys r2 = recordKeys r) [sampleValidRow, normWitnessRow] rows2 :=
  ⟨by decide, normalizer_spec "email" [sampleValidRow, normWitnessRow] (by decide)⟩

/-- Normalization succeeds when every row owns the email column. -/
theorem normalizeRows_isSome (col : String) (rows : List Rcd)
    (h : ∀ r ∈ rows, (getField r col).isSome = true) :
    (normalizeRows col rows).isSome = true := by
  obtain ⟨rows2, h2, _⟩ := normalizer_spec col rows h
  rw [h2]
  rfl

/-- C10: `processData` never fails under the header invariant: it returns
the state unchanged when no table is loaded or no column is selected
(including the falsy placeholder selection), and with a table, a selected
column, and the column present as a string in every row it always
produces a result — the trim/lower-case access never hits a missing
value. -/
theorem processData_no_throw (s : AppState)
    (h : ∀ data col, s.csvData = some data → s.selectedEmailColumn = some col →
      col ≠ "" → ∀ r ∈ data, (getField r col).isSome = true) :
    (processData s).isSome = true ∧
    (s.csvData = none ∨ s.selectedEmailColumn = none → processData s = some s) := by
  constructor
  · cases hd : s.csvData with
    | none => simp [processData, hd]
    | some data =>
      cases hc : s.selectedEmailColumn with
      | none => simp [processData, hd, hc]
      | some col =>
        by_cases hcol : col = ""
        · simp [processData, hd, hc, hcol]
        · obtain ⟨t, ht⟩ := Option.isSome_iff_exists.mp
            (normalizeRows_isSome col data (h data col hd hc hcol))
          simp [processData, hd, hc, hcol, ht]
  · rintro (hcase | hcase)
    · simp [processData, hcase]
    · cases hd2 : s.csvData with
      | none => simp [processData, hd2]
      | some d => simp [processData, hd2, hcase]

/-- Concrete witness for `processData_no_throw`: the loaded witness table
and, in the same statement, the no-op on the initial state (no table). -/
theorem processData_no_throw_witness :
    ((processData witnessState).isSome = true ∧
      (witnessState.csvData = none ∨ witnessState.selectedEmailColumn = none →
        processData witnessState = some witnessState)) ∧
    processData initialState = some initialState :=
  ⟨processData_no_throw witnessState (fun data col hdd hcc hcol => by
      cases Option.some.inj hdd
      cases Option.some.inj hcc
      decide),
    (processData_no_throw initialState
        (fun data col hdd => Option.noConfusion hdd)).2 (Or.inl rfl)⟩

/-! ## The validator: characterization and claim C4 -/

/-- C4 counterexample: the regex accepts "x@a.b." although nothing follows
the final dot (the block after the matched dot may itself end in dots),
and rejects "a@.b" although its domain contains a dot with a character
after the final dot (the regex needs a character between the at-sign and
some dot). The claim's description of `validateEmail` is therefore wrong
in both directions. -/
theorem validateEmail_claim_cex :
    validateEmail "x@a.b." = true ∧ claimValidEmail "x@a.b." = false ∧
    validateEmail "a@.b" = false ∧ claimValidEmail "a@.b" = true := by
  refine ⟨by decide, by decide, by decide, by decide⟩

theorem validateEmail_iff (s : String) :
    validateEmail s = true ↔
      ∃ A B C : List Char, s.toList = A ++ '@' :: (B ++ '.' :: C) ∧
        A ≠ [] ∧ B ≠ [] ∧ C ≠ [] ∧
        A.all okChar = true ∧ B.all okChar = true ∧ C.all okChar = true := by
  rw [validateEmail, List.any_eq_true]
  constructor
  · rintro ⟨⟨A, rest⟩, hp, hcond⟩
    have hsplit := (mem_splits _ _).mp hp
    rcases rest with _ | ⟨a, d⟩
    · simp at hcond
    · simp only [Bool.and_eq_true, Bool.not_eq_true', List.isEmpty_eq_false,
        beq_iff_eq, List.any_eq_true] at hcond
      obtain ⟨⟨hA, hokA⟩, ha, ⟨B, rest2⟩, hq, hcond2⟩ := hcond
      have hsplit2 := (mem_splits _ _).mp hq
      rcases rest2 with _ | ⟨b, C⟩
      · simp at hcond2
      · simp only [Bool.and_eq_true, Bool.not_eq_true', List.isEmpty_eq_false,
          beq_iff_eq] at hcond2
        obtain ⟨⟨hB, hokB⟩, ⟨hb, hC⟩, hokC⟩ := hcond2
        refine ⟨A, B, C, ?_, hA, hB, hC, hokA, hokB, hokC⟩
        rw [← hsplit, ha]
        simp only [List.cons_append]
        rw [← hsplit2, hb]
  · rintro ⟨A, B, C, hs, hA, hB, hC, hokA, hokB, hokC⟩
    refine ⟨(A, '@' :: (B ++ '.' :: C)), (mem_splits _ _).mpr hs.symm, ?_⟩
    simp only [Bool.and_eq_true, Bool.not_eq_true', List.isEmpty_eq_false,
      beq_iff_eq, List.any_eq_true]
    refine ⟨⟨hA, hokA⟩, by simp, ⟨B, '.' :: C⟩, (mem_splits _ _).mpr rfl, ⟨hB, hokB⟩, ?_⟩
    show (('.' : Char) == '.' && !C.isEmpty && C.all okChar) = true
    simp [hC, hokC]

theorem validateEmailAmended_iff (s : String) :
    validateEmailAmended s = true ↔
      ∃ A D : List Char, s.toList = A ++ '@' :: D ∧ A ≠ [] ∧
        A.all okChar = true ∧ D.all okChar = true ∧ '.' ∈ (D.drop 1).dropLast := by
  rw [validateEmailAmended, List.any_eq_true]
  constructor
  · rintro ⟨⟨A, rest⟩, hp, hcond⟩
    have hsplit := (mem_splits _ _).mp hp
    rcases rest with _ | ⟨a, d⟩
    · simp at hcond
    · simp only [Bool.and_eq_true, Bool.not_eq_true', List.isEmpty_eq_false,
        beq_iff_eq] at hcond
      obtain ⟨⟨hA, hokA⟩, ⟨ha, hokD⟩, hdot⟩ := hcond
      refine ⟨A, d, ?_, hA, hokA, hokD, by simpa using hdot⟩
      rw [← hsplit, ha]
  · rintro ⟨A, D, hs, hA, hokA, hokD, hdot⟩
    refine ⟨(A, '@' :: D), (mem_splits _ _).mpr hs.symm, ?_⟩
    simp only [Bool.and_eq_true, Bool.not_eq_true', List.isEmpty_eq_false, beq_iff_eq]
    refine ⟨⟨hA, hokA⟩, ⟨trivial, hokD⟩, ?_⟩
    simpa using hdot

theorem domain_middle_dot_iff (D : List Char) :
    (∃ B C : List Char, D = B ++ '.' :: C ∧ B ≠ [] ∧ C ≠ [] ∧
        B.all okChar = true ∧ C.all okChar = true) ↔
      (D.all okChar = true ∧ '.' ∈ (D.drop 1).dropLast) := by
  constructor
  · rintro ⟨B, C, rfl, hB, hC, hokB, hokC⟩
    constructor
    · simp only [List.all_append, List.all_cons, Bool.and_eq_true]
      exact ⟨hokB, by decide, hokC⟩
    · rcases B with _ | ⟨b0, B2⟩
      · exact absurd rfl hB
      · rcases C with _ | ⟨c0, C2⟩
        · exact absurd rfl hC
        · simp only [List.cons_append, List.drop_succ_cons, List.drop_zero]
          rw [List.dropLast_append_of_ne_nil _ (by simp),
            List.dropLast_cons_of_ne_nil (by simp)]
          exact List.mem_append_right _ (List.mem_cons_self _ _)
  · rintro ⟨hall, hdot⟩
    rcases D with _ | ⟨h0, D1⟩
    · simp at hdot
    · simp only [List.drop_succ_cons, List.drop_zero] at hdot
      have hD1 : D1 ≠ [] := by
        intro hnil
        rw [hnil] at hdot
        simp at hdot
      obtain ⟨u, t, hu⟩ := List.mem_iff_append.mp hdot
      have hD1eq : D1 = u ++ '.' :: (t ++ [D1.getLast hD1]) := by
        conv_lhs => rw [← List.dropLast_append_getLast hD1]
        rw [hu]
        simp
      refine ⟨h0 :: u, t ++ [D1.getLast hD1], ?_, by simp, by simp, ?_, ?_⟩
      · rw [List.cons_append, ← hD1eq]
      · have h2 : (h0 :: D1).all okChar = true := hall
        rw [hD1eq] at h2
        simp only [List.all_cons, List.all_append, Bool.and_eq_true] at h2
        simp only [List.all_cons, Bool.and_eq_true]
        exact ⟨h2.1, h2.2.1⟩
      · have h2 : (h0 :: D1).all okChar = true := hall
        rw [hD1eq] at h2
        simp only [List.all_cons, List.all_append, Bool.and_eq_true] at h2
        simp only [List.all_append, List.all_cons, Bool.and_eq_true]
        exact ⟨h2.2.2.2.1, h2.2.2.2.2⟩

/-- C4 amended: `validateEmail` accepts exactly the strings consisting of a
non-empty local part without whitespace or at-signs, then the at-sign,
then a domain part without whitespace or at-signs that contains a dot
which is neither the first nor the last character of the domain
(`validateEmailAmended`). -/
theorem validateEmail_eq_amended (s : String) :
    validateEmail s = validateEmailAmended s := by
  rw [Bool.eq_iff_iff, validateEmail_iff, validateEmailAmended_iff]
  constructor
  · rintro ⟨A, B, C, hs, hA, hB, hC, hokA, hokB, hokC⟩
    have hdom := (domain_middle_dot_iff (B ++ '.' :: C)).mp ⟨B, C, rfl, hB, hC, hokB, hokC⟩
    exact ⟨A, B ++ '.' :: C, hs, hA, hokA, hdom.1, hdom.2⟩
  · rintro ⟨A, D, hs, hA, hokA, hokD, hdot⟩
    obtain ⟨B, C, hD, hB, hC, hokB, hokC⟩ := (domain_middle_dot_iff D).mpr ⟨hokD, hdot⟩
    exact ⟨A, B, C, by rw [hs, hD], hA, hB, hC, hokA, hokB, hokC⟩

end EmailCleanup
